import Mathlib

/-!
Verification of the evidence-retrieval and citation-normalization pipeline of
nanoPerplexityAI (src/nanoPerplexityAI.py), as a shallow embedding.

Strings are embedded as `List Char`.  The two regular expressions the source
uses — `re.findall(r'\[\(?(\d+)\)?\]', response)` in `renumber_citations` and
`re.sub(rf'\[\(?{old}\)?\]', f'[{new}]', response)` — are embedded by a single
deterministic scanner.  For this pattern the Python regex engine needs no
backtracking search:

* after the literal `[`, the optional `\(?` succeeds exactly when the next
  character is `(` (if the engine consumed `(` and later failed, the retry
  without `(` would have to match `\d+` against `(`, which also fails, so the
  choice is forced);
* `(\d+)` greedily takes the maximal nonempty run of digits (giving back a
  digit would leave the next mandatory token `\)?\]` facing a digit, which
  fails either way, so the maximal run is forced);
* `\)?` then `\]` succeed exactly when the remaining text starts with `]` or
  with `)]`.

Matches of this pattern contain `[` only as their first character, so two
matches can never overlap, and the non-overlapping left-to-right semantics of
`re.findall` / `re.sub` coincide with a single left-to-right scan that, at each
position, takes the local match if there is one and otherwise moves one
character forward.  `scan` below is that scan; it factors the text into plain
characters and citation markers.
-/

/-- The digit characters of a number in base 10, little-endian, with explicit
fuel (fuel ≥ n) so that the definition is structural and kernel-reducible. -/
def natDigitsRev : Nat → Nat → List Nat
  | 0, _ => []
  | _ + 1, 0 => []
  | fuel + 1, n + 1 => (n + 1) % 10 :: natDigitsRev fuel ((n + 1) / 10)

/-- Decimal digit characters of a number, most significant first: the model of
Python's str(n) for a nonnegative int (used by the f-strings `f'[{new}]'` and
`rf'\[\(?{old}\)?\]'` of the source). -/
def natDigits (n : Nat) : List Char :=
  if n = 0 then ['0'] else ((natDigitsRev n n).map Nat.digitChar).reverse

/-- Python str(n) as a Lean String. -/
def natStr (n : Nat) : String :=
  String.mk (natDigits n)

/-- The model of Python's int(s) on a string of decimal digits (the capture
group of the findall regex is `(\d+)`, so only digit strings arise). -/
def digitsToNat (ds : List Char) : Nat :=
  ds.foldl (fun a c => 10 * a + (c.toNat - 48)) 0

/-- Value of a little-endian base-10 digit list (proof helper relating
natDigitsRev to digitsToNat). -/
def ofLE (L : List Nat) : Nat :=
  L.foldr (fun d a => 10 * a + d) 0

/-- A citation marker as matched by `\[\(?(\d+)\)?\]`: optional `(`, the
captured digit string, optional `)`. -/
structure Marker where
  lp : Bool
  digits : List Char
  rp : Bool
deriving DecidableEq, Repr

/-- The exact characters a marker occupies in the text. -/
def Marker.render (m : Marker) : List Char :=
  '[' :: ((if m.lp then ['('] else []) ++ m.digits ++ (if m.rp then [')'] else []) ++ [']'])

/-- A marker produced by the scanner: nonempty digit string, digits only. -/
def MarkerWF (m : Marker) : Bool :=
  !m.digits.isEmpty && m.digits.all Char.isDigit

/-- One segment of the factored text: a plain character or a citation marker. -/
inductive Seg where
  | plain (c : Char)
  | marker (m : Marker)
deriving DecidableEq, Repr

/-- The characters a segment occupies. -/
def Seg.render : Seg → List Char
  | .plain c => [c]
  | .marker m => m.render

/-- The characters a segment list occupies. -/
def renderSegs (l : List Seg) : List Char :=
  (l.map Seg.render).flatten

/-- Greedy `\d+`: split off the maximal (possibly empty) digit run. -/
def takeDigits : List Char → List Char × List Char
  | [] => ([], [])
  | c :: cs =>
    if c.isDigit then
      let p := takeDigits cs
      (c :: p.1, p.2)
    else ([], c :: cs)

/-- After `\[\(?` and the digit run: `\)?\]` — the text must continue with `]`
or with `)]`. -/
def parseAfterDigits (lp : Bool) (ds : List Char) (s : List Char) : Option (Marker × List Char) :=
  match s with
  | [] => none
  | [c] => if c = ']' then some (⟨lp, ds, false⟩, []) else none
  | c :: c2 :: r2 =>
    if c = ']' then some (⟨lp, ds, false⟩, c2 :: r2)
    else if c = ')' ∧ c2 = ']' then some (⟨lp, ds, true⟩, r2) else none

/-- After `\[\(?`: require a nonempty digit run, then `\)?\]`. -/
def parseDigitsAndClose (lp : Bool) (s : List Char) : Option (Marker × List Char) :=
  let p := takeDigits s
  if p.1.isEmpty then none else parseAfterDigits lp p.1 p.2

/-- Attempt to match `\[\(?(\d+)\)?\]` at the head of the text.  On success it
returns the marker and the text after the match. -/
def tryMatch (s : List Char) : Option (Marker × List Char) :=
  match s with
  | [] => none
  | c :: rest =>
    if c = '[' then
      match rest with
      | [] => none
      | c2 :: r2 => if c2 = '(' then parseDigitsAndClose true r2 else parseDigitsAndClose false rest
    else none

/-- The left-to-right non-overlapping scan, with explicit fuel (fuel ≥ length)
so that the definition is structural and kernel-reducible. -/
def scanFuel : Nat → List Char → List Seg
  | 0, _ => []
  | _ + 1, [] => []
  | fuel + 1, c :: cs =>
    match tryMatch (c :: cs) with
    | some (m, rest) => .marker m :: scanFuel fuel rest
    | none => .plain c :: scanFuel fuel cs

/-- Factor a text into plain characters and citation markers: the embedding of
the match positions of `\[\(?(\d+)\)?\]` under `re.findall` / `re.sub`. -/
def scan (s : List Char) : List Seg :=
  scanFuel s.length s

/-- The scanner's invariant on its own output: every marker is well formed and
no plain character starts a match of the pattern. -/
def WFSegs : List Seg → Bool
  | [] => true
  | .marker m :: rest => MarkerWF m && WFSegs rest
  | .plain c :: rest => (tryMatch (c :: renderSegs rest)).isNone && WFSegs rest

/-- The markers of the text, in order of appearance. -/
def markersOf (s : List Char) : List Marker :=
  (scan s).filterMap (fun seg => match seg with | .marker m => some m | .plain _ => none)

/-- `re.findall(r'\[\(?(\d+)\)?\]', s)`: the captured digit strings. -/
def findallDigits (s : List Char) : List (List Char) :=
  (markersOf s).map Marker.digits

/-- `map(int, re.findall(...))`: the marker values. -/
def findallNat (s : List Char) : List Nat :=
  (findallDigits s).map digitsToNat

/-- Insert into a strictly ascending list, dropping a duplicate. -/
def insSorted (x : Nat) : List Nat → List Nat
  | [] => [x]
  | y :: ys => if x < y then x :: y :: ys else if x = y then y :: ys else y :: insSorted x ys

/-- `sorted(set(l))`: the distinct elements in strictly ascending order. -/
def sortedDedup (l : List Nat) : List Nat :=
  l.foldr insSorted []

/-- Line 139: `citations = sorted(set(map(int, re.findall(...))))`. -/
def citations (s : List Char) : List Nat :=
  sortedDedup (findallNat s)

/-- `{old: new for new, old in enumerate(cs, k)}` as an association list in
insertion order (ascending old, since cs is sorted). -/
def cmapFrom : Nat → List Nat → List (Nat × Nat)
  | _, [] => []
  | k, o :: os => (o, k) :: cmapFrom (k + 1) os

/-- Line 140: the Citation Mapping, old value to new value, in ascending old
order (the iteration order of `citation_map.items()`). -/
def citation_map (s : List Char) : List (Nat × Nat) :=
  cmapFrom 1 (citations s)

/-- Apply a marker transformation to a segment, leaving plain characters
untouched. -/
def onMarker (g : Marker → Marker) : Seg → Seg
  | .marker m => .marker (g m)
  | .plain c => .plain c

/-- `re.sub(rf'\[\(?{old}\)?\]', f'[{new}]', ·)` at segment level: a marker is
matched by the literal pattern exactly when its digit string is str(old); the
replacement is the plain marker [new]. -/
def replaceSeg (o n : Nat) : Seg → Seg :=
  onMarker (fun m => if m.digits = natDigits o then ⟨false, natDigits n, false⟩ else m)

/-- `re.sub(rf'\[\(?{old}\)?\]', f'[{new}]', s)`. -/
def subMarker (o n : Nat) (s : List Char) : List Char :=
  renderSegs ((scan s).map (replaceSeg o n))

/-- One iteration of the loop at lines 141–142. -/
def subOld (s : List Char) (p : Nat × Nat) : List Char :=
  subMarker p.1 p.2 s

/-- Lines 137–143: renumber_citations(response) — the rewritten response and
the citation map. -/
def renumber_citations (s : List Char) : List Char × List (Nat × Nat) :=
  ((citation_map s).foldl subOld s, citation_map s)

/-- The new value the map assigns to a marker whose digit string is d (the
first pair whose old value prints as d), if any. -/
def newOf (m : List (Nat × Nat)) (d : List Char) : Option Nat :=
  (m.find? (fun p => decide (d = natDigits p.1))).map Prod.snd

/-- Simultaneous rewriting of all markers according to the map: the intended
meaning of the substitution loop. -/
def replaceAllSeg (m : List (Nat × Nat)) : Seg → Seg :=
  onMarker (fun mk =>
    match newOf m mk.digits with
    | some n => ⟨false, natDigits n, false⟩
    | none => mk)

/-- Two factored texts with the same shape: plain characters agree, and at
marker positions the right-hand side carries some well-formed marker. -/
inductive SegsSim : List Seg → List Seg → Prop where
  | nil : SegsSim [] []
  | plain (c : Char) {t t' : List Seg} : SegsSim t t' → SegsSim (.plain c :: t) (.plain c :: t')
  | marker {m m' : Marker} {t t' : List Seg} :
      MarkerWF m' = true → SegsSim t t' → SegsSim (.marker m :: t) (.marker m' :: t')

/-- The value the Citation Mapping assigns to v (v itself if unmapped). -/
def applyMap (m : List (Nat × Nat)) (v : Nat) : Nat :=
  ((m.find? (fun p => p.1 == v)).map Prod.snd).getD v

/-- A digit string is canonical when it is str of its int value, i.e. it has
no leading zeros (str(int(d)) == d). -/
def canonicalDigits (d : List Char) : Prop :=
  d = natDigits (digitsToNat d)

/-- Outcomes of the requests.get / raise_for_status / BeautifulSoup block of
fetch_webpage, abstracted: success carries the extracted text of the page's
paragraph elements; the failure constructors are the exception classes caught
at line 67. -/
inductive GetResult where
  | ok (paragraphs : List String)
  | connectionError
  | httpError
  | requestTimeout
  | globalTimeout
deriving DecidableEq, Repr

/-- Lines 55–71: fetch_webpage(url, timeout) given the outcome of its network
block.  On success the page text is the paragraph texts joined by single
spaces (' '.join); every caught exception yields (url, None). -/
def fetch_webpage (url : String) (r : GetResult) : String × Option String :=
  match r with
  | .ok ps => (url, some (String.intercalate " " ps))
  | _ => (url, none)

/-- The keys of a Python dict modelled as an association list. -/
def dictKeys (d : List (String × String)) : List String :=
  d.map Prod.fst

/-- Python dict assignment d[k] = v: an existing key keeps its position and
gets the new value; a new key is appended. -/
def dictInsert (d : List (String × String)) (k v : String) : List (String × String) :=
  if k ∈ dictKeys d then d.map (fun p => if p.1 = k then (k, v) else p)
  else d ++ [(k, v)]

/-- Python dict lookup (first — and, keys being unique, only — entry). -/
def dictGet (d : List (String × String)) (k : String) : Option String :=
  (d.find? (fun p => p.1 == k)).map Prod.snd

/-- One step of the dict comprehension at lines 80–81: keep the completed
fetch's entry only when both the url and the page text are truthy (in Python,
None and the empty string are falsy). -/
def gpwStep (d : List (String × String)) (p : String × GetResult) : List (String × String) :=
  match fetch_webpage p.1 p.2 with
  | (u, some t) => if u ≠ "" ∧ t ≠ "" then dictInsert d u t else d
  | (_, none) => d

/-- Lines 78–81: the dict comprehension of google_parse_webpages, folded over
the fetch outcomes in completion order. -/
def google_parse_webpages (completion : List (String × GetResult)) : List (String × String) :=
  completion.foldl gpwStep []

/-- One step of lastNonemptySuccess. -/
def lastStep (u : String) (acc : Option String) (p : String × GetResult) : Option String :=
  match fetch_webpage p.1 p.2 with
  | (u', some t) => if u' = u ∧ u ≠ "" ∧ t ≠ "" then some t else acc
  | (_, none) => acc

/-- The text of the last fetch of u (in completion order) that succeeded with
a truthy url and nonempty text, if any. -/
def lastNonemptySuccess (completion : List (String × GetResult)) (u : String) : Option String :=
  completion.foldl (lastStep u) none

/-- Python list indexing l[i]: a negative index addresses from the end; an
out-of-range index raises IndexError, modelled as none. -/
def pyListGet (l : List String) (i : Int) : Option String :=
  if 0 ≤ i then l.get? i.toNat
  else if (-i).toNat ≤ l.length then l.get? (l.length - (-i).toNat) else none

/-- One line of the comprehension at line 148: f"{new}. {url}" with url =
list(search_dic.keys())[old - 1]. -/
def citedLine (keys : List String) (p : Nat × Nat) : Option String :=
  (pyListGet keys ((p.1 : Int) - 1)).map (fun u => natStr p.2 ++ ". " ++ u)

/-- The list comprehension at line 148; none models the IndexError escaping
when some old value is out of range. -/
def cited_links : List (Nat × Nat) → List String → Option (List String)
  | [], _ => some []
  | p :: rest, keys =>
    match citedLine keys p, cited_links rest keys with
    | some line, some ls => some (line :: ls)
    | _, _ => none

/-- Lines 146–149: generate_citation_links, the rendered source list. -/
def generate_citation_links (m : List (Nat × Nat)) (keys : List String) : Option String :=
  (cited_links m keys).map (String.intercalate "\n")

/-- Lines 152–159: the markdown text save_markdown writes for the given query,
raw response and Evidence Map key sequence; none models an uncaught exception
from generate_citation_links (the program crashes and no file is written). -/
def save_markdown_content (query response : String) (keys : List String) : Option String :=
  let r := renumber_citations response.toList
  let response2 := String.mk r.1
  if r.2.isEmpty then some ("# " ++ query ++ "\n\n## Answer\n" ++ response2)
  else
    (generate_citation_links r.2 keys).map
      (fun links => "# " ++ query ++ "\n\n## Sources\n" ++ links ++ "\n\n## Answer\n" ++ response2)

/-- Line 16: TOTAL_TIMEOUT = 6 (seconds); times are modelled as integers. -/
def TOTAL_TIMEOUT : Int := 6

/-- Line 15: SEARCH_TIME_LIMIT = 3, the per-item timeout passed to
fetch_webpage. -/
def SEARCH_TIME_LIMIT : Int := 3

/-- Lines 44–52: the trace function installed by fetch_webpage raises
TimeoutError at clock reading now iff now - start > TOTAL_TIMEOUT, where start
is the start time of that one fetch_webpage invocation (line 57). -/
def trace_raises (start now : Int) : Bool :=
  decide (TOTAL_TIMEOUT < now - start)

/-- Line 61: the timeout argument fetch_webpage passes to requests.get — the
per-item timeout, unchanged. -/
def fetch_get_timeout (timeout : Int) : Int :=
  timeout

/-! ### Digit lemmas -/

theorem digitChar_isDigit {d : Nat} (h : d < 10) : (Nat.digitChar d).isDigit = true := by
  interval_cases d <;> rfl

theorem digitChar_toNat {d : Nat} (h : d < 10) : (Nat.digitChar d).toNat = 48 + d := by
  interval_cases d <;> rfl

theorem natDigitsRev_lt_ten : ∀ (fuel n : Nat), ∀ d ∈ natDigitsRev fuel n, d < 10 := by
  intro fuel
  induction fuel with
  | zero => intro n d hd; simp [natDigitsRev] at hd
  | succ f ih =>
    intro n d hd
    cases n with
    | zero => simp [natDigitsRev] at hd
    | succ m =>
      simp only [natDigitsRev, List.mem_cons] at hd
      rcases hd with h | h
      · subst h; exact Nat.mod_lt _ (by norm_num)
      · exact ih _ _ h

theorem ofLE_natDigitsRev : ∀ (fuel n : Nat), n ≤ fuel → ofLE (natDigitsRev fuel n) = n := by
  intro fuel
  induction fuel with
  | zero => intro n hn; interval_cases n; rfl
  | succ f ih =>
    intro n hn
    cases n with
    | zero => rfl
    | succ m =>
      have hdiv : (m + 1) / 10 ≤ f := by
        have h1 : (m + 1) / 10 < m + 1 := Nat.div_lt_self (Nat.succ_pos m) (by norm_num)
        omega
      simp only [natDigitsRev, ofLE, List.foldr_cons]
      have := ih ((m + 1) / 10) hdiv
      simp only [ofLE] at this
      rw [this]
      omega

theorem digitsToNat_reverse_map (L : List Nat) (hL : ∀ d ∈ L, d < 10) :
    digitsToNat ((L.map Nat.digitChar).reverse) = ofLE L := by
  simp only [digitsToNat, ofLE, List.foldl_reverse, List.foldr_map]
  induction L with
  | nil => rfl
  | cons d L ih =>
    simp only [List.foldr_cons]
    rw [ih (fun x hx => hL x (List.mem_cons_of_mem _ hx))]
    rw [digitChar_toNat (hL d (List.mem_cons_self _ _))]
    omega

theorem digitsToNat_natDigits (n : Nat) : digitsToNat (natDigits n) = n := by
  by_cases h : n = 0
  · subst h; rfl
  · simp only [natDigits, if_neg h]
    rw [digitsToNat_reverse_map _ (natDigitsRev_lt_ten n n)]
    exact ofLE_natDigitsRev n n (le_refl n)

theorem natDigits_inj {a b : Nat} (h : natDigits a = natDigits b) : a = b := by
  have := congrArg digitsToNat h
  rwa [digitsToNat_natDigits, digitsToNat_natDigits] at this

theorem natDigits_ne_nil (n : Nat) : natDigits n ≠ [] := by
  by_cases h : n = 0
  · subst h; simp [natDigits]
  · simp only [natDigits, if_neg h]
    intro hc
    have : natDigitsRev n n ≠ [] := by
      cases n with
      | zero => exact absurd rfl h
      | succ m => simp [natDigitsRev]
    simp only [List.reverse_eq_nil_iff, List.map_eq_nil_iff] at hc
    exact this hc

theorem natDigits_all_digit (n : Nat) : ∀ c ∈ natDigits n, c.isDigit = true := by
  intro c hc
  by_cases h : n = 0
  · subst h; simp [natDigits] at hc; subst hc; rfl
  · simp only [natDigits, if_neg h, List.mem_reverse, List.mem_map] at hc
    obtain ⟨d, hd, rfl⟩ := hc
    exact digitChar_isDigit (natDigitsRev_lt_ten n n d hd)

theorem markerWF_natDigits (n : Nat) : MarkerWF ⟨false, natDigits n, false⟩ = true := by
  have h1 : (natDigits n).isEmpty = false := by
    cases hd : natDigits n with
    | nil => exact absurd hd (natDigits_ne_nil n)
    | cons a l => rfl
  have h2 : (natDigits n).all Char.isDigit = true := List.all_eq_true.mpr (natDigits_all_digit n)
  simp [MarkerWF, h1, h2]

/-! ### takeDigits lemmas -/

theorem takeDigits_append_eq : ∀ s : List Char, (takeDigits s).1 ++ (takeDigits s).2 = s := by
  intro s
  induction s with
  | nil => rfl
  | cons c cs ih =>
    by_cases h : c.isDigit
    · simp only [takeDigits, if_pos h, List.cons_append, ih]
    · simp only [takeDigits, if_neg h, List.nil_append]

theorem takeDigits_all : ∀ s : List Char, ∀ c ∈ (takeDigits s).1, c.isDigit = true := by
  intro s
  induction s with
  | nil => intro c hc; simp [takeDigits] at hc
  | cons a cs ih =>
    intro c hc
    by_cases h : a.isDigit
    · simp only [takeDigits, if_pos h, List.mem_cons] at hc
      rcases hc with rfl | hc
      · exact h
      · exact ih c hc
    · simp [takeDigits, if_neg h] at hc

theorem takeDigits_rest_head : ∀ (s : List Char) (c : Char) (r : List Char),
    (takeDigits s).2 = c :: r → c.isDigit = false := by
  intro s
  induction s with
  | nil => intro c r h; simp [takeDigits] at h
  | cons a cs ih =>
    intro c r h
    by_cases ha : a.isDigit
    · simp only [takeDigits, if_pos ha] at h
      exact ih c r h
    · simp only [takeDigits, if_neg ha] at h
      cases h
      exact Bool.not_eq_true _ ▸ (by simpa using ha)

theorem takeDigits_of_append (ds rest : List Char) (hds : ∀ c ∈ ds, c.isDigit = true)
    (hrest : ∀ c r, rest = c :: r → c.isDigit = false) :
    takeDigits (ds ++ rest) = (ds, rest) := by
  induction ds with
  | nil =>
    cases rest with
    | nil => rfl
    | cons c r =>
      have := hrest c r rfl
      simp [takeDigits, this]
  | cons a ds ih =>
    have ha : a.isDigit = true := hds a (List.mem_cons_self _ _)
    have h2 := ih (fun c hc => hds c (List.mem_cons_of_mem _ hc))
    simp only [List.cons_append, takeDigits, ha, if_pos, List.append_eq, h2]

/-! ### tryMatch lemmas -/

theorem marker_render_eq (m : Marker) :
    m.render = '[' :: ((if m.lp then ['('] else []) ++ m.digits ++
      (if m.rp then [')'] else []) ++ [']']) := rfl

theorem marker_render_tail_no_bracket (m : Marker) (hwf : MarkerWF m = true) :
    ∀ c ∈ (if m.lp then ['('] else []) ++ m.digits ++ (if m.rp then [')'] else []) ++ [']'],
      c ≠ '[' := by
  intro c hc
  simp only [List.append_assoc, List.mem_append, List.mem_singleton] at hc
  have hdig : ∀ x ∈ m.digits, x.isDigit = true := by
    simp only [MarkerWF, Bool.and_eq_true, List.all_eq_true] at hwf
    exact hwf.2
  rcases hc with h | h | h | h
  · cases hm : m.lp <;> rw [hm] at h <;> simp at h
    subst h; decide
  · have := hdig c h
    intro hcc; subst hcc; simp at this
  · cases hm : m.rp <;> rw [hm] at h <;> simp at h
    subst h; decide
  · subst h; decide

theorem parseAfterDigits_some {lp : Bool} {ds s : List Char} {m : Marker} {r : List Char}
    (h : parseAfterDigits lp ds s = some (m, r)) :
    (m = ⟨lp, ds, false⟩ ∧ s = ']' :: r) ∨ (m = ⟨lp, ds, true⟩ ∧ s = ')' :: ']' :: r) := by
  match s with
  | [] => exact absurd h (by simp [parseAfterDigits])
  | [c] =>
    simp only [parseAfterDigits] at h
    by_cases hc : c = ']'
    · subst hc
      rw [if_pos rfl] at h
      have h3 := Option.some.inj h
      refine Or.inl ⟨(congrArg Prod.fst h3).symm, ?_⟩
      rw [show r = [] from (congrArg Prod.snd h3).symm]
    · rw [if_neg hc] at h
      exact absurd h (by simp)
  | c :: c2 :: r2 =>
    simp only [parseAfterDigits] at h
    by_cases hc : c = ']'
    · subst hc
      rw [if_pos rfl] at h
      have h3 := Option.some.inj h
      refine Or.inl ⟨(congrArg Prod.fst h3).symm, ?_⟩
      rw [show c2 :: r2 = r from congrArg Prod.snd h3]
    · rw [if_neg hc] at h
      by_cases hp : c = ')' ∧ c2 = ']'
      · rw [if_pos hp] at h
        have h3 := Option.some.inj h
        refine Or.inr ⟨(congrArg Prod.fst h3).symm, ?_⟩
        rw [hp.1, hp.2, show r2 = r from congrArg Prod.snd h3]
      · rw [if_neg hp] at h
        exact absurd h (by simp)

theorem parseAfterDigits_render {ds : List Char} (lp rp : Bool) (t : List Char) :
    parseAfterDigits lp ds ((if rp then [')'] else []) ++ ']' :: t) = some (⟨lp, ds, rp⟩, t) := by
  cases rp <;> cases t <;> simp [parseAfterDigits]

theorem parseDigitsAndClose_some {lp : Bool} {s : List Char} {m : Marker} {r : List Char}
    (h : parseDigitsAndClose lp s = some (m, r)) :
    MarkerWF m = true ∧ m.lp = lp ∧
      s = m.digits ++ (if m.rp then [')'] else []) ++ (']' :: r) := by
  have hsplit := takeDigits_append_eq s
  have hall := takeDigits_all s
  simp only [parseDigitsAndClose] at h
  rcases htd : takeDigits s with ⟨ds1, ds2⟩
  simp only [htd] at h hsplit hall
  by_cases he : ds1.isEmpty
  · rw [if_pos he] at h
    exact absurd h (by simp)
  · rw [if_neg he] at h
    have hie : ds1.isEmpty = false := by
      cases hd : ds1 with
      | nil => rw [hd] at he; exact absurd rfl he
      | cons a l => rfl
    rcases parseAfterDigits_some h with ⟨rfl, hrest⟩ | ⟨rfl, hrest⟩
    · refine ⟨?_, rfl, ?_⟩
      · simp only [MarkerWF, hie, Bool.not_false, Bool.true_and, List.all_eq_true]
        exact hall
      · show s = ds1 ++ [] ++ (']' :: r)
        rw [List.append_nil, ← hsplit, hrest]
    · refine ⟨?_, rfl, ?_⟩
      · simp only [MarkerWF, hie, Bool.not_false, Bool.true_and, List.all_eq_true]
        exact hall
      · show s = ds1 ++ [')'] ++ (']' :: r)
        rw [← hsplit, hrest]
        simp

theorem parseDigitsAndClose_render {ds : List Char} (lp rp : Bool) (t : List Char)
    (hne : ds ≠ []) (hall : ∀ c ∈ ds, c.isDigit = true) :
    parseDigitsAndClose lp (ds ++ (if rp then [')'] else []) ++ ']' :: t) = some (⟨lp, ds, rp⟩, t) := by
  have htd : takeDigits (ds ++ ((if rp then [')'] else []) ++ ']' :: t)) =
      (ds, (if rp then [')'] else []) ++ ']' :: t) := by
    apply takeDigits_of_append _ _ hall
    intro c r h
    cases rp <;> simp at h <;> rw [← h.1] <;> decide
  have h2 : ds ++ (if rp then [')'] else []) ++ ']' :: t =
      ds ++ ((if rp then [')'] else []) ++ ']' :: t) := by simp
  rw [h2]
  simp only [parseDigitsAndClose, htd]
  have hie : ds.isEmpty = false := by
    cases ds with
    | nil => exact absurd rfl hne
    | cons a l => rfl
  rw [if_neg (by rw [hie]; exact Bool.false_ne_true)]
  exact parseAfterDigits_render lp rp t

/-! ### tryMatch building blocks -/

theorem tryMatch_some {s : List Char} {m : Marker} {r : List Char}
    (h : tryMatch s = some (m, r)) : s = m.render ++ r ∧ MarkerWF m = true := by
  match s with
  | [] => exact absurd h (by simp [tryMatch])
  | [c] =>
    simp only [tryMatch] at h
    by_cases hc : c = '['
    · subst hc
      rw [if_pos rfl] at h
      exact absurd h (by simp)
    · rw [if_neg hc] at h
      exact absurd h (by simp)
  | c :: c2 :: r2 =>
    simp only [tryMatch] at h
    by_cases hc : c = '['
    · subst hc
      rw [if_pos rfl] at h
      by_cases h2 : c2 = '('
      · subst h2
        rw [if_pos rfl] at h
        obtain ⟨hwf, hlp, hs⟩ := parseDigitsAndClose_some h
        refine ⟨?_, hwf⟩
        rw [marker_render_eq, hlp]
        simp [hs, List.append_assoc]
      · rw [if_neg h2] at h
        obtain ⟨hwf, hlp, hs⟩ := parseDigitsAndClose_some h
        refine ⟨?_, hwf⟩
        rw [marker_render_eq, hlp]
        simp [hs, List.append_assoc]
    · rw [if_neg hc] at h
      exact absurd h (by simp)

theorem markerWF_parts {m : Marker} (hwf : MarkerWF m = true) :
    m.digits ≠ [] ∧ ∀ c ∈ m.digits, c.isDigit = true := by
  simp only [MarkerWF, Bool.and_eq_true, Bool.not_eq_true', List.all_eq_true] at hwf
  refine ⟨?_, hwf.2⟩
  intro hnil
  rw [hnil] at hwf
  exact absurd hwf.1 (by simp)

theorem tryMatch_cons_paren (X : List Char) :
    tryMatch ('[' :: '(' :: X) = parseDigitsAndClose true X := by
  simp [tryMatch]

theorem tryMatch_cons_noparen (d : Char) (X : List Char) (hd : d ≠ '(') :
    tryMatch ('[' :: d :: X) = parseDigitsAndClose false (d :: X) := by
  simp [tryMatch, hd]

theorem tryMatch_render_append {m : Marker} (hwf : MarkerWF m = true) (t : List Char) :
    tryMatch (m.render ++ t) = some (m, t) := by
  obtain ⟨hne, hall⟩ := markerWF_parts hwf
  obtain ⟨lp, ds, rp⟩ := m
  simp only [] at hne hall
  cases lp with
  | true =>
    have hfact := parseDigitsAndClose_render true rp t hne hall
    rw [show ds ++ (if rp then [')'] else []) ++ (']' :: t) =
        ds ++ ((if rp then [')'] else []) ++ (']' :: t)) from by simp [List.append_assoc]] at hfact
    show tryMatch (('[' :: (['('] ++ ds ++ (if rp then [')'] else []) ++ [']'])) ++ t) = _
    rw [show ('[' :: (['('] ++ ds ++ (if rp then [')'] else []) ++ [']'])) ++ t =
        '[' :: '(' :: (ds ++ ((if rp then [')'] else []) ++ (']' :: t))) from by
      simp [List.append_assoc]]
    rw [tryMatch_cons_paren]
    exact hfact
  | false =>
    cases hd : ds with
    | nil => exact absurd hd hne
    | cons d ds2 =>
      subst hd
      have hdd : d.isDigit = true := hall d (List.mem_cons_self _ _)
      have hdne : d ≠ '(' := by
        intro hh
        rw [hh] at hdd
        exact absurd hdd (by decide)
      have hfact := parseDigitsAndClose_render false rp t hne hall
      rw [show (d :: ds2) ++ (if rp then [')'] else []) ++ (']' :: t) =
          d :: (ds2 ++ ((if rp then [')'] else []) ++ (']' :: t))) from by
        simp [List.append_assoc]] at hfact
      show tryMatch (('[' :: ([] ++ (d :: ds2) ++ (if rp then [')'] else []) ++ [']'])) ++ t) = _
      rw [show ('[' :: ([] ++ (d :: ds2) ++ (if rp then [')'] else []) ++ [']'])) ++ t =
          '[' :: d :: (ds2 ++ ((if rp then [')'] else []) ++ (']' :: t))) from by
        simp [List.append_assoc]]
      rw [tryMatch_cons_noparen d _ hdne]
      exact hfact

theorem marker_render_length_pos (m : Marker) : 0 < m.render.length := by
  rw [marker_render_eq]
  simp

theorem tryMatch_length {s : List Char} {m : Marker} {r : List Char}
    (h : tryMatch s = some (m, r)) : r.length < s.length := by
  obtain ⟨hs, hwf⟩ := tryMatch_some h
  rw [hs, List.length_append]
  have := marker_render_length_pos m
  omega

/-! ### scan equations and round trips -/

theorem scanFuel_congr : ∀ (f1 f2 : Nat) (s : List Char), s.length ≤ f1 → s.length ≤ f2 →
    scanFuel f1 s = scanFuel f2 s := by
  intro f1
  induction f1 with
  | zero =>
    intro f2 s h1 h2
    have : s = [] := List.eq_nil_of_length_eq_zero (Nat.le_zero.mp h1)
    subst this
    cases f2 <;> rfl
  | succ f ih =>
    intro f2 s h1 h2
    cases s with
    | nil => cases f2 <;> rfl
    | cons c cs =>
      cases f2 with
      | zero => simp at h2
      | succ f2b =>
        have hlc : (c :: cs).length = cs.length + 1 := rfl
        cases htm : tryMatch (c :: cs) with
        | none =>
          simp only [scanFuel, htm]
          rw [ih f2b cs (by rw [hlc] at h1; omega) (by rw [hlc] at h2; omega)]
        | some p =>
          obtain ⟨m, rest⟩ := p
          have hlen := tryMatch_length htm
          rw [hlc] at h1 h2
          rw [hlc] at hlen
          simp only [scanFuel, htm]
          rw [ih f2b rest (by omega) (by omega)]

theorem scan_eq_marker {s : List Char} {m : Marker} {rest : List Char}
    (h : tryMatch s = some (m, rest)) : scan s = .marker m :: scan rest := by
  cases s with
  | nil => exact absurd h (by simp [tryMatch])
  | cons c cs =>
    have hlen := tryMatch_length h
    show scanFuel (cs.length + 1) (c :: cs) = _
    simp only [scanFuel, h]
    have : scanFuel cs.length rest = scan rest := by
      apply scanFuel_congr
      · have : (c :: cs).length = cs.length + 1 := rfl
        rw [this] at hlen
        omega
      · exact le_refl _
    rw [this]

theorem scan_eq_plain {c : Char} {cs : List Char} (h : tryMatch (c :: cs) = none) :
    scan (c :: cs) = .plain c :: scan cs := by
  show scanFuel (cs.length + 1) (c :: cs) = _
  simp only [scanFuel, h]
  rfl

theorem renderSegs_nil : renderSegs [] = [] := rfl

theorem renderSegs_cons (seg : Seg) (rest : List Seg) :
    renderSegs (seg :: rest) = seg.render ++ renderSegs rest := by
  simp [renderSegs]

theorem renderSegs_scan_aux : ∀ (n : Nat) (s : List Char), s.length ≤ n →
    renderSegs (scan s) = s := by
  intro n
  induction n with
  | zero =>
    intro s h
    have : s = [] := List.eq_nil_of_length_eq_zero (Nat.le_zero.mp h)
    subst this
    rfl
  | succ n ih =>
    intro s h
    cases s with
    | nil => rfl
    | cons c cs =>
      have hlc : (c :: cs).length = cs.length + 1 := rfl
      rw [hlc] at h
      cases htm : tryMatch (c :: cs) with
      | none =>
        rw [scan_eq_plain htm, renderSegs_cons, ih cs (by omega)]
        rfl
      | some p =>
        obtain ⟨m, rest⟩ := p
        obtain ⟨hs, _⟩ := tryMatch_some htm
        have hlen := tryMatch_length htm
        rw [hlc] at hlen
        rw [scan_eq_marker htm, renderSegs_cons, ih rest (by omega)]
        exact hs.symm

theorem renderSegs_scan (s : List Char) : renderSegs (scan s) = s :=
  renderSegs_scan_aux s.length s (le_refl _)

theorem wfSegs_scan_aux : ∀ (n : Nat) (s : List Char), s.length ≤ n →
    WFSegs (scan s) = true := by
  intro n
  induction n with
  | zero =>
    intro s h
    have : s = [] := List.eq_nil_of_length_eq_zero (Nat.le_zero.mp h)
    subst this
    rfl
  | succ n ih =>
    intro s h
    cases s with
    | nil => rfl
    | cons c cs =>
      have hlc : (c :: cs).length = cs.length + 1 := rfl
      rw [hlc] at h
      cases htm : tryMatch (c :: cs) with
      | none =>
        rw [scan_eq_plain htm]
        simp only [WFSegs, renderSegs_scan, htm, Option.isNone_none, Bool.true_and]
        exact ih cs (by omega)
      | some p =>
        obtain ⟨m, rest⟩ := p
        obtain ⟨_, hwf⟩ := tryMatch_some htm
        have hlen := tryMatch_length htm
        rw [hlc] at hlen
        rw [scan_eq_marker htm]
        simp only [WFSegs, Bool.and_eq_true]
        exact ⟨hwf, ih rest (by omega)⟩

theorem wfSegs_scan (s : List Char) : WFSegs (scan s) = true :=
  wfSegs_scan_aux s.length s (le_refl _)

theorem wfSegs_parts : ∀ {seg : Seg} {rest : List Seg}, WFSegs (seg :: rest) = true →
    WFSegs rest = true := by
  intro seg rest h
  cases seg with
  | plain c =>
    have h2 : (tryMatch (c :: renderSegs rest)).isNone = true ∧ WFSegs rest = true := by
      simpa [WFSegs, Bool.and_eq_true] using h
    exact h2.2
  | marker m =>
    have h2 : MarkerWF m = true ∧ WFSegs rest = true := by
      simpa [WFSegs, Bool.and_eq_true] using h
    exact h2.2

theorem scan_renderSegs : ∀ segs : List Seg, WFSegs segs = true →
    scan (renderSegs segs) = segs := by
  intro segs
  induction segs with
  | nil => intro _; rfl
  | cons seg rest ih =>
    intro hwf
    cases seg with
    | marker m =>
      have h1 : MarkerWF m = true ∧ WFSegs rest = true := by
        simpa [WFSegs, Bool.and_eq_true] using hwf
      rw [renderSegs_cons]
      show scan (m.render ++ renderSegs rest) = _
      rw [scan_eq_marker (tryMatch_render_append h1.1 _), ih h1.2]
    | plain c =>
      have h1 : (tryMatch (c :: renderSegs rest)).isNone = true ∧ WFSegs rest = true := by
        simpa [WFSegs, Bool.and_eq_true] using hwf
      have hnone : tryMatch (c :: renderSegs rest) = none :=
        Option.isNone_iff_eq_none.mp h1.1
      rw [renderSegs_cons]
      show scan (c :: renderSegs rest) = _
      rw [scan_eq_plain hnone, ih h1.2]

/-! ### Non-overlap: a match starting inside a plain region cannot reach a
following marker, because the pattern contains `[` only as its first
character.  This is what makes single substitutions leave the rest of the
factorization intact. -/

theorem marker_render_tail_structure {m : Marker} (hwf : MarkerWF m = true) :
    ∃ tail, m.render = '[' :: tail ∧ '[' ∉ tail := by
  refine ⟨_, marker_render_eq m, ?_⟩
  intro hmem
  exact marker_render_tail_no_bracket m hwf _ hmem rfl

theorem tryMatch_boundary {P A : List Char} {m : Marker} {r : List Char}
    (hP : P ≠ []) (h : tryMatch (P ++ '[' :: A) = some (m, r)) :
    P = m.render ++ P.drop m.render.length ∧ r = P.drop m.render.length ++ '[' :: A := by
  obtain ⟨hs, hwf⟩ := tryMatch_some h
  obtain ⟨tail, hrend, htail⟩ := marker_render_tail_structure hwf
  have hlen : m.render.length ≤ P.length := by
    by_contra hlt
    push_neg at hlt
    have h1 : (P ++ '[' :: A).get? P.length = some '[' := by
      rw [List.get?_append_right (le_refl P.length)]
      simp
    have h2 : (m.render ++ r).get? P.length = m.render.get? P.length :=
      List.get?_append hlt
    rw [hs, h2, hrend] at h1
    have hpos : 0 < P.length := List.length_pos.mpr hP
    obtain ⟨k, hk⟩ : ∃ k, P.length = k + 1 := ⟨P.length - 1, by omega⟩
    rw [hk, List.get?_cons_succ] at h1
    exact htail (List.get?_mem h1)
  have htake : P.take m.render.length = m.render := by
    have e1 : (P ++ '[' :: A).take m.render.length = P.take m.render.length :=
      List.take_append_of_le_length hlen
    rw [hs, List.take_left] at e1
    exact e1.symm
  have hP2 : P = m.render ++ P.drop m.render.length := by
    conv_lhs => rw [← List.take_append_drop m.render.length P]
    rw [htake]
  refine ⟨hP2, ?_⟩
  have hs2 : m.render ++ r = m.render ++ (P.drop m.render.length ++ '[' :: A) := by
    rw [← hs]
    conv_lhs => rw [hP2]
    rw [List.append_assoc]
  exact List.append_cancel_left hs2

theorem tryMatch_none_transfer {P A B : List Char} (hP : P ≠ [])
    (h : tryMatch (P ++ '[' :: A) = none) : tryMatch (P ++ '[' :: B) = none := by
  cases htm : tryMatch (P ++ '[' :: B) with
  | none => rfl
  | some p =>
    obtain ⟨m, r⟩ := p
    obtain ⟨hPQ, _⟩ := tryMatch_boundary hP htm
    have hwf := (tryMatch_some htm).2
    have hcontra : tryMatch (P ++ '[' :: A) = some (m, P.drop m.render.length ++ '[' :: A) := by
      conv_lhs => rw [hPQ, List.append_assoc]
      exact tryMatch_render_append hwf _
    rw [hcontra] at h
    exact absurd h (by simp)

theorem segsSim_decomp : ∀ {t t' : List Seg}, SegsSim t t' →
    renderSegs t = renderSegs t' ∨
    ∃ (PR A B : List Char), renderSegs t = PR ++ '[' :: A ∧ renderSegs t' = PR ++ '[' :: B := by
  intro t t' h
  induction h with
  | nil => exact Or.inl rfl
  | plain c hsim ih =>
    rcases ih with heq | ⟨PR, A, B, hA, hB⟩
    · exact Or.inl (by rw [renderSegs_cons, renderSegs_cons, heq])
    · refine Or.inr ⟨c :: PR, A, B, ?_, ?_⟩
      · rw [renderSegs_cons, hA]; rfl
      · rw [renderSegs_cons, hB]; rfl
  | marker hwf hsim ih =>
    rename_i m m' t2 t2'
    refine Or.inr ⟨[], ?_, ?_, ?_, ?_⟩
    · exact (if m.lp then ['('] else []) ++ m.digits ++
        (if m.rp then [')'] else []) ++ [']'] ++ renderSegs t2
    · exact (if m'.lp then ['('] else []) ++ m'.digits ++
        (if m'.rp then [')'] else []) ++ [']'] ++ renderSegs t2'
    · rw [renderSegs_cons]
      show m.render ++ renderSegs t2 = _
      rw [marker_render_eq]
      simp [List.append_assoc]
    · rw [renderSegs_cons]
      show m'.render ++ renderSegs t2' = _
      rw [marker_render_eq]
      simp [List.append_assoc]

theorem wfSegs_cons_plain {c : Char} {rest : List Seg} (h : WFSegs (.plain c :: rest) = true) :
    tryMatch (c :: renderSegs rest) = none ∧ WFSegs rest = true := by
  have h2 : (tryMatch (c :: renderSegs rest)).isNone = true ∧ WFSegs rest = true := by
    simpa [WFSegs, Bool.and_eq_true] using h
  exact ⟨Option.isNone_iff_eq_none.mp h2.1, h2.2⟩

theorem wfSegs_cons_marker {m : Marker} {rest : List Seg} (h : WFSegs (.marker m :: rest) = true) :
    MarkerWF m = true ∧ WFSegs rest = true := by
  simpa [WFSegs, Bool.and_eq_true] using h

theorem wfSegs_of_sim : ∀ {t t' : List Seg}, SegsSim t t' → WFSegs t = true →
    WFSegs t' = true := by
  intro t t' h
  induction h with
  | nil => intro h2; exact h2
  | plain c hsim ih =>
    rename_i u u'
    intro hwf
    obtain ⟨hnone, hrest⟩ := wfSegs_cons_plain hwf
    have hrest2 := ih hrest
    rcases segsSim_decomp hsim with heq | ⟨PR, A, B, hA, hB⟩
    · have h3 : tryMatch (c :: renderSegs u') = none := by rw [← heq]; exact hnone
      simp [WFSegs, h3, hrest2]
    · have hnone2 : tryMatch ((c :: PR) ++ '[' :: A) = none := by
        rw [show (c :: PR) ++ '[' :: A = c :: (PR ++ '[' :: A) from rfl, ← hA]
        exact hnone
      have hnone3 : tryMatch ((c :: PR) ++ '[' :: B) = none :=
        tryMatch_none_transfer (by simp) hnone2
      have h3 : tryMatch (c :: renderSegs u') = none := by
        rw [hB]
        rw [show c :: (PR ++ '[' :: B) = (c :: PR) ++ '[' :: B from rfl]
        exact hnone3
      simp [WFSegs, h3, hrest2]
  | marker hwfm hsim ih =>
    intro hwf
    obtain ⟨_, hrest⟩ := wfSegs_cons_marker hwf
    simp [WFSegs, hwfm, ih hrest]

theorem segsSim_onMarker (g : Marker → Marker)
    (hg : ∀ mk, MarkerWF mk = true → MarkerWF (g mk) = true) :
    ∀ segs : List Seg, WFSegs segs = true → SegsSim segs (segs.map (onMarker g)) := by
  intro segs
  induction segs with
  | nil => intro _; exact SegsSim.nil
  | cons seg rest ih =>
    intro hwf
    cases seg with
    | plain c => exact SegsSim.plain c (ih (wfSegs_parts hwf))
    | marker m =>
      exact SegsSim.marker (hg m (wfSegs_cons_marker hwf).1) (ih (wfSegs_parts hwf))

theorem wfSegs_map_onMarker (g : Marker → Marker)
    (hg : ∀ mk, MarkerWF mk = true → MarkerWF (g mk) = true)
    (segs : List Seg) (hwf : WFSegs segs = true) :
    WFSegs (segs.map (onMarker g)) = true :=
  wfSegs_of_sim (segsSim_onMarker g hg segs hwf) hwf

theorem replaceSeg_markerFun_wf (o n : Nat) : ∀ mk, MarkerWF mk = true →
    MarkerWF (if mk.digits = natDigits o then (⟨false, natDigits n, false⟩ : Marker) else mk) =
      true := by
  intro mk h
  by_cases hc : mk.digits = natDigits o
  · rw [if_pos hc]; exact markerWF_natDigits n
  · rw [if_neg hc]; exact h

theorem scan_subMarker (o n : Nat) (s : List Char) :
    scan (subMarker o n s) = (scan s).map (replaceSeg o n) := by
  show scan (renderSegs ((scan s).map (replaceSeg o n))) = _
  exact scan_renderSegs _
    (wfSegs_map_onMarker _ (replaceSeg_markerFun_wf o n) _ (wfSegs_scan s))

theorem wfSegs_map_replaceSeg (o n : Nat) {segs : List Seg} (hwf : WFSegs segs = true) :
    WFSegs (segs.map (replaceSeg o n)) = true :=
  wfSegs_map_onMarker _ (replaceSeg_markerFun_wf o n) _ hwf

/-! ### sorted(set(...)) and the citation map -/

theorem insSorted_mem (x : Nat) : ∀ (l : List Nat) (y : Nat),
    y ∈ insSorted x l ↔ y = x ∨ y ∈ l := by
  intro l
  induction l with
  | nil => intro y; simp [insSorted]
  | cons z zs ih =>
    intro y
    by_cases h1 : x < z
    · simp [insSorted, if_pos h1, List.mem_cons]
    · by_cases h2 : x = z
      · subst h2
        simp [insSorted, if_neg h1, List.mem_cons]
      · simp only [insSorted, if_neg h1, if_neg h2, List.mem_cons, ih y]
        tauto

theorem insSorted_pairwise (x : Nat) : ∀ (l : List Nat), l.Pairwise (· < ·) →
    (insSorted x l).Pairwise (· < ·) := by
  intro l
  induction l with
  | nil => intro _; simp [insSorted]
  | cons z zs ih =>
    intro hp
    rw [List.pairwise_cons] at hp
    by_cases h1 : x < z
    · rw [insSorted, if_pos h1]
      rw [List.pairwise_cons]
      refine ⟨?_, List.pairwise_cons.mpr hp⟩
      intro y hy
      rcases List.mem_cons.mp hy with rfl | hy2
      · exact h1
      · exact lt_trans h1 (hp.1 y hy2)
    · by_cases h2 : x = z
      · rw [insSorted, if_neg h1, if_pos h2]
        exact List.pairwise_cons.mpr hp
      · rw [insSorted, if_neg h1, if_neg h2]
        rw [List.pairwise_cons]
        have hzx : z < x := by omega
        refine ⟨?_, ih hp.2⟩
        intro y hy
        rcases (insSorted_mem x zs y).mp hy with rfl | hy2
        · exact hzx
        · exact hp.1 y hy2

theorem sortedDedup_pairwise (l : List Nat) : (sortedDedup l).Pairwise (· < ·) := by
  induction l with
  | nil => simp [sortedDedup]
  | cons x xs ih => exact insSorted_pairwise x _ ih

theorem sortedDedup_mem (l : List Nat) (y : Nat) : y ∈ sortedDedup l ↔ y ∈ l := by
  induction l with
  | nil => simp [sortedDedup]
  | cons x xs ih =>
    show y ∈ insSorted x (sortedDedup xs) ↔ _
    rw [insSorted_mem, ih, List.mem_cons]

theorem cmapFrom_mem_fst : ∀ {k : Nat} {cs : List Nat} {p : Nat × Nat},
    p ∈ cmapFrom k cs → p.1 ∈ cs := by
  intro k cs
  induction cs generalizing k with
  | nil => intro p hp; simp [cmapFrom] at hp
  | cons o os ih =>
    intro p hp
    rcases List.mem_cons.mp hp with rfl | hp2
    · exact List.mem_cons_self _ _
    · exact List.mem_cons_of_mem _ (ih hp2)

theorem cmapFrom_snd_ge : ∀ {k : Nat} {cs : List Nat} {p : Nat × Nat},
    p ∈ cmapFrom k cs → k ≤ p.2 := by
  intro k cs
  induction cs generalizing k with
  | nil => intro p hp; simp [cmapFrom] at hp
  | cons o os ih =>
    intro p hp
    rcases List.mem_cons.mp hp with rfl | hp2
    · exact le_refl _
    · exact le_trans (Nat.le_succ k) (ih hp2)

theorem cmapFrom_map_fst : ∀ (k : Nat) (cs : List Nat),
    (cmapFrom k cs).map Prod.fst = cs := by
  intro k cs
  induction cs generalizing k with
  | nil => rfl
  | cons o os ih => simp [cmapFrom, ih]

theorem cmapFrom_map_snd : ∀ (k : Nat) (cs : List Nat),
    (cmapFrom k cs).map Prod.snd = List.range' k cs.length := by
  intro k cs
  induction cs generalizing k with
  | nil => rfl
  | cons o os ih => simp [cmapFrom, List.range'_succ, ih]

theorem cmapFrom_pairwise_lt : ∀ (k : Nat) (cs : List Nat), cs.Pairwise (· < ·) →
    (cmapFrom k cs).Pairwise (fun p q => p.1 < q.1 ∧ p.2 < q.2) := by
  intro k cs
  induction cs generalizing k with
  | nil => intro _; simp [cmapFrom]
  | cons o os ih =>
    intro hp
    rw [List.pairwise_cons] at hp
    rw [cmapFrom, List.pairwise_cons]
    refine ⟨?_, ih (k + 1) hp.2⟩
    intro q hq
    exact ⟨hp.1 q.1 (cmapFrom_mem_fst hq), lt_of_lt_of_le (Nat.lt_succ_self k) (cmapFrom_snd_ge hq)⟩

theorem cmapFrom_mem_iff : ∀ (k : Nat) (cs : List Nat) (v : Nat),
    (∃ n, (v, n) ∈ cmapFrom k cs) ↔ v ∈ cs := by
  intro k cs
  induction cs generalizing k with
  | nil => intro v; simp [cmapFrom]
  | cons o os ih =>
    intro v
    constructor
    · rintro ⟨n, hn⟩
      rcases List.mem_cons.mp hn with heq | hmem
      · rw [List.mem_cons]
        left
        exact congrArg Prod.fst heq
      · exact List.mem_cons_of_mem _ ((ih (k + 1) v).mp ⟨n, hmem⟩)
    · intro hv
      rcases List.mem_cons.mp hv with rfl | hmem
      · exact ⟨k, List.mem_cons_self _ _⟩
      · obtain ⟨n, hn⟩ := (ih (k + 1) v).mpr hmem
        exact ⟨n, List.mem_cons_of_mem _ hn⟩

theorem cmapFrom_no_clobber : ∀ (k : Nat) (cs : List Nat), cs.Pairwise (· < ·) →
    (∀ v ∈ cs, k ≤ v) →
    (cmapFrom k cs).Pairwise (fun p q => p.2 ≠ q.1) := by
  intro k cs
  induction cs generalizing k with
  | nil => intro _ _; simp [cmapFrom]
  | cons o os ih =>
    intro hp hlb
    rw [List.pairwise_cons] at hp
    rw [cmapFrom, List.pairwise_cons]
    constructor
    · intro q hq
      have h1 : q.1 ∈ os := cmapFrom_mem_fst hq
      have h2 : o < q.1 := hp.1 q.1 h1
      have h3 : k ≤ o := hlb o (List.mem_cons_self _ _)
      omega
    · apply ih (k + 1) hp.2
      intro v hv
      have := hp.1 v hv
      have := hlb o (List.mem_cons_self _ _)
      omega

/-! ### the substitution loop computes the simultaneous rewrite -/

theorem newOf_nil (d : List Char) : newOf [] d = none := rfl

theorem replaceAllSeg_nil (seg : Seg) : replaceAllSeg [] seg = seg := by
  cases seg <;> rfl

theorem newOf_append (mu nu : List (Nat × Nat)) (d : List Char) :
    newOf (mu ++ nu) d = (match newOf mu d with | some n => some n | none => newOf nu d) := by
  induction mu with
  | nil => simp [newOf]
  | cons p mu2 ih =>
    by_cases hp : d = natDigits p.1
    · simp [newOf, List.find?, hp]
    · simp only [newOf, List.cons_append, List.find?] at ih ⊢
      rw [show (decide (d = natDigits p.1)) = false by simp [hp]]
      exact ih

theorem mem_of_newOf_some {mu : List (Nat × Nat)} {d : List Char} {n : Nat}
    (h : newOf mu d = some n) : ∃ p ∈ mu, p.2 = n ∧ d = natDigits p.1 := by
  simp only [newOf, Option.map_eq_some'] at h
  obtain ⟨p, hp, hn⟩ := h
  have hmem := List.mem_of_find?_eq_some hp
  have hpred := List.find?_some hp
  simp only [decide_eq_true_eq] at hpred
  exact ⟨p, hmem, hn, hpred⟩

theorem replaceAllSeg_markerFun_wf (mu : List (Nat × Nat)) : ∀ mk, MarkerWF mk = true →
    MarkerWF (match newOf mu mk.digits with
      | some n => (⟨false, natDigits n, false⟩ : Marker)
      | none => mk) = true := by
  intro mk h
  cases hn : newOf mu mk.digits with
  | some n => exact markerWF_natDigits n
  | none => exact h

theorem wfSegs_map_replaceAllSeg (mu : List (Nat × Nat)) {segs : List Seg}
    (hwf : WFSegs segs = true) : WFSegs (segs.map (replaceAllSeg mu)) = true :=
  wfSegs_map_onMarker _ (replaceAllSeg_markerFun_wf mu) _ hwf

theorem replaceSeg_replaceAllSeg {mu : List (Nat × Nat)} {o n : Nat}
    (hcross : ∀ p ∈ mu, natDigits p.2 ≠ natDigits o) (seg : Seg) :
    replaceSeg o n (replaceAllSeg mu seg) = replaceAllSeg (mu ++ [(o, n)]) seg := by
  cases seg with
  | plain c => rfl
  | marker mk =>
    simp only [replaceAllSeg, onMarker]
    cases hn : newOf mu mk.digits with
    | some n2 =>
      obtain ⟨p, hp, hpn, _⟩ := mem_of_newOf_some hn
      have hne : natDigits n2 ≠ natDigits o := hpn ▸ hcross p hp
      have happ : newOf (mu ++ [(o, n)]) mk.digits = some n2 := by rw [newOf_append, hn]
      simp only [replaceSeg, onMarker, happ]
      rw [if_neg hne]
    | none =>
      have happ : newOf (mu ++ [(o, n)]) mk.digits = newOf [(o, n)] mk.digits := by
        rw [newOf_append, hn]
      by_cases hc : mk.digits = natDigits o
      · have h2 : newOf (mu ++ [(o, n)]) mk.digits = some n := by
          rw [happ]; simp [newOf, List.find?, hc]
        simp only [replaceSeg, onMarker, h2]
        rw [if_pos hc]
      · have h2 : newOf (mu ++ [(o, n)]) mk.digits = none := by
          rw [happ]; simp [newOf, List.find?, hc]
        simp only [replaceSeg, onMarker, h2]
        rw [if_neg hc]

theorem foldl_subOld_replaceAll : ∀ (rest mu : List (Nat × Nat)) (segs : List Seg),
    WFSegs segs = true →
    List.Pairwise (fun p q => natDigits p.2 ≠ natDigits q.1) (mu ++ rest) →
    rest.foldl subOld (renderSegs (segs.map (replaceAllSeg mu))) =
      renderSegs (segs.map (replaceAllSeg (mu ++ rest))) := by
  intro rest
  induction rest with
  | nil =>
    intro mu segs hwf hpw
    rw [List.append_nil]
    rfl
  | cons q rest2 ih =>
    intro mu segs hwf hpw
    obtain ⟨o, n⟩ := q
    have hcross : ∀ p ∈ mu, natDigits p.2 ≠ natDigits o := by
      intro p hp
      exact (List.pairwise_append.mp hpw).2.2 p hp (o, n) (List.mem_cons_self _ _)
    have hwfmap : WFSegs (segs.map (replaceAllSeg mu)) = true := wfSegs_map_replaceAllSeg mu hwf
    have hscan : scan (renderSegs (segs.map (replaceAllSeg mu))) = segs.map (replaceAllSeg mu) :=
      scan_renderSegs _ hwfmap
    show List.foldl subOld (subOld (renderSegs (segs.map (replaceAllSeg mu))) (o, n)) rest2 = _
    have hstep : subOld (renderSegs (segs.map (replaceAllSeg mu))) (o, n) =
        renderSegs (segs.map (replaceAllSeg (mu ++ [(o, n)]))) := by
      show subMarker o n _ = _
      simp only [subMarker, hscan, List.map_map]
      congr 1
      apply List.map_congr_left
      intro seg _
      exact replaceSeg_replaceAllSeg hcross seg
    rw [hstep]
    have hpw2 : List.Pairwise (fun p q => natDigits p.2 ≠ natDigits q.1)
        ((mu ++ [(o, n)]) ++ rest2) := by
      rw [List.append_assoc]
      simpa using hpw
    rw [ih (mu ++ [(o, n)]) segs hwf hpw2, List.append_assoc]
    rfl

theorem renumber_fst_eq_replaceAll (s : List Char)
    (hpw : List.Pairwise (fun p q => natDigits p.2 ≠ natDigits q.1) (citation_map s)) :
    (renumber_citations s).1 = renderSegs ((scan s).map (replaceAllSeg (citation_map s))) := by
  show (citation_map s).foldl subOld s = _
  have h1 : (scan s).map (replaceAllSeg []) = scan s := by
    have h2 := List.map_congr_left (l := scan s) (f := replaceAllSeg []) (g := id)
      (fun a _ => replaceAllSeg_nil a)
    rw [h2, List.map_id]
  have h0 : renderSegs ((scan s).map (replaceAllSeg [])) = s := by
    rw [h1, renderSegs_scan]
  have h3 := foldl_subOld_replaceAll (citation_map s) [] (scan s) (wfSegs_scan s)
    (by simpa using hpw)
  rw [h0] at h3
  simpa using h3

theorem citation_map_no_clobber (s : List Char) (hpos : ∀ v ∈ findallNat s, 1 ≤ v) :
    List.Pairwise (fun p q => natDigits p.2 ≠ natDigits q.1) (citation_map s) := by
  have h1 : (citations s).Pairwise (· < ·) := sortedDedup_pairwise _
  have h2 : ∀ v ∈ citations s, 1 ≤ v := fun v hv => hpos v ((sortedDedup_mem _ v).mp hv)
  have h3 := cmapFrom_no_clobber 1 (citations s) h1 h2
  exact h3.imp (fun hne hdig => hne (natDigits_inj hdig))

theorem mem_markersOf {s : List Char} {mk : Marker} :
    mk ∈ markersOf s ↔ Seg.marker mk ∈ scan s := by
  simp only [markersOf, List.mem_filterMap]
  constructor
  · rintro ⟨seg, hseg, hf⟩
    cases seg with
    | plain c => simp at hf
    | marker m =>
      simp only [Option.some.injEq] at hf
      rw [← hf]
      exact hseg
  · intro h
    exact ⟨.marker mk, h, rfl⟩

theorem findallNat_mem_of_marker {s : List Char} {mk : Marker} (h : mk ∈ markersOf s) :
    digitsToNat mk.digits ∈ findallNat s := by
  show digitsToNat mk.digits ∈ ((markersOf s).map Marker.digits).map digitsToNat
  exact List.mem_map_of_mem digitsToNat (List.mem_map_of_mem Marker.digits h)

theorem find?_congr_pred {α : Type} (p q : α → Bool) (h : ∀ a, p a = q a) :
    ∀ l : List α, l.find? p = l.find? q := by
  intro l
  induction l with
  | nil => rfl
  | cons a l2 ih => simp [List.find?, h a, ih]

theorem newOf_eq_applyMap_find (m : List (Nat × Nat)) (v : Nat) :
    newOf m (natDigits v) = (m.find? (fun p => p.1 == v)).map Prod.snd := by
  unfold newOf
  congr 1
  apply find?_congr_pred
  intro p
  by_cases h : p.1 = v
  · subst h
    simp
  · have hne : natDigits v ≠ natDigits p.1 := fun hc => h (natDigits_inj hc).symm
    rw [show (decide (natDigits v = natDigits p.1)) = false by simp [hne],
      show (p.1 == v) = false by simp [h]]

theorem find?_applyMap_of_mem {m : List (Nat × Nat)} {v : Nat} (hex : ∃ n, (v, n) ∈ m) :
    m.find? (fun p => p.1 == v) = some (v, applyMap m v) := by
  obtain ⟨n, hn⟩ := hex
  have hsome : (m.find? (fun p => p.1 == v)).isSome := by
    rw [List.find?_isSome]
    exact ⟨(v, n), hn, by simp⟩
  obtain ⟨q, hq⟩ := Option.isSome_iff_exists.mp hsome
  have hpred := List.find?_some hq
  simp only [beq_iff_eq] at hpred
  have happ : applyMap m v = q.2 := by
    simp [applyMap, hq]
  rw [hq, happ]
  rw [show q = (q.1, q.2) from rfl, hpred]

theorem replaceAllSeg_canonical {s : List Char} {mk : Marker}
    (hcan : mk.digits = natDigits (digitsToNat mk.digits))
    (hex : ∃ n, (digitsToNat mk.digits, n) ∈ citation_map s) :
    replaceAllSeg (citation_map s) (.marker mk) =
      .marker ⟨false, natDigits (applyMap (citation_map s) (digitsToNat mk.digits)), false⟩ := by
  have h1 : newOf (citation_map s) mk.digits =
      some (applyMap (citation_map s) (digitsToNat mk.digits)) := by
    conv_lhs => rw [hcan]
    rw [newOf_eq_applyMap_find, find?_applyMap_of_mem hex]
    rfl
  simp only [replaceAllSeg, onMarker, h1]

theorem cmapFrom_range_ident : ∀ (K k : Nat), ∀ p ∈ cmapFrom k (List.range' k K), p.1 = p.2 := by
  intro K
  induction K with
  | zero => intro k p hp; simp [cmapFrom] at hp
  | succ K ih =>
    intro k p hp
    rw [List.range'_succ] at hp
    rcases List.mem_cons.mp hp with rfl | hp2
    · rfl
    · exact ih (k + 1) p hp2

theorem subMarker_id {s : List Char}
    (hplain : ∀ mk ∈ markersOf s, mk = ⟨false, natDigits (digitsToNat mk.digits), false⟩)
    (v : Nat) : subMarker v v s = s := by
  have hmap : (scan s).map (replaceSeg v v) = scan s := by
    have h2 := List.map_congr_left (l := scan s) (f := replaceSeg v v) (g := id) ?_
    · rw [h2, List.map_id]
    · intro seg hseg
      cases seg with
      | plain c => rfl
      | marker mk =>
        have hm := hplain mk (mem_markersOf.mpr hseg)
        show replaceSeg v v (.marker mk) = .marker mk
        simp only [replaceSeg, onMarker]
        by_cases hc : mk.digits = natDigits v
        · rw [if_pos hc]
          have hv : digitsToNat mk.digits = v := by rw [hc, digitsToNat_natDigits]
          rw [show mk = (⟨false, natDigits v, false⟩ : Marker) from by rw [hm, hv]]
        · rw [if_neg hc]
  show renderSegs ((scan s).map (replaceSeg v v)) = s
  rw [hmap, renderSegs_scan]

theorem foldl_subOld_id {s : List Char}
    (hplain : ∀ mk ∈ markersOf s, mk = ⟨false, natDigits (digitsToNat mk.digits), false⟩) :
    ∀ l : List (Nat × Nat), (∀ p ∈ l, p.1 = p.2) → l.foldl subOld s = s := by
  intro l
  induction l with
  | nil => intro _; rfl
  | cons q l2 ih =>
    intro hq
    obtain ⟨o, n⟩ := q
    have ho : o = n := hq (o, n) (List.mem_cons_self _ _)
    subst ho
    show List.foldl subOld (subOld s (o, o)) l2 = s
    rw [show subOld s (o, o) = subMarker o o s from rfl, subMarker_id hplain o]
    exact ih (fun p hp => hq p (List.mem_cons_of_mem _ hp))

/-- C4, mapping part and rewrite part.  The mapping built at line 140 is the
graph of the strictly increasing bijection from the distinct marker values
onto 1..K; under the proviso that every marker in the text is written with
canonical digits (no leading zeros) and a positive value, the substitution
loop at lines 141–142 rewrites every marker occurrence of value v into the
plain marker [new] with new the mapped value of v, leaving plain characters
untouched. -/
theorem renumber_citations_mapping_and_rewrite (s : List Char) :
    ((citation_map s).map Prod.fst = citations s ∧
     (citation_map s).map Prod.snd = List.range' 1 (citations s).length ∧
     List.Pairwise (fun p q => p.1 < q.1 ∧ p.2 < q.2) (citation_map s) ∧
     (∀ v : Nat, (∃ n, (v, n) ∈ citation_map s) ↔ v ∈ findallNat s)) ∧
    ((∀ mk ∈ markersOf s, mk.digits = natDigits (digitsToNat mk.digits) ∧
        1 ≤ digitsToNat mk.digits) →
      scan (renumber_citations s).1 = (scan s).map (onMarker (fun mk =>
        ⟨false, natDigits (applyMap (citation_map s) (digitsToNat mk.digits)), false⟩))) := by
  constructor
  · refine ⟨cmapFrom_map_fst 1 _, cmapFrom_map_snd 1 _,
      cmapFrom_pairwise_lt 1 _ (sortedDedup_pairwise _), ?_⟩
    intro v
    show (∃ n, (v, n) ∈ cmapFrom 1 (citations s)) ↔ _
    rw [cmapFrom_mem_iff]
    show v ∈ sortedDedup (findallNat s) ↔ _
    exact sortedDedup_mem _ v
  · intro hcanon
    have hpos : ∀ v ∈ findallNat s, 1 ≤ v := by
      intro v hv
      simp only [findallNat, findallDigits, List.map_map, List.mem_map,
        Function.comp] at hv
      obtain ⟨mk, hmk, rfl⟩ := hv
      exact (hcanon mk hmk).2
    have hpw := citation_map_no_clobber s hpos
    rw [renumber_fst_eq_replaceAll s hpw,
      scan_renderSegs _ (wfSegs_map_replaceAllSeg _ (wfSegs_scan s))]
    apply List.map_congr_left
    intro seg hseg
    cases seg with
    | plain c => rfl
    | marker mk =>
      have hmem := mem_markersOf.mpr hseg
      have hc := hcanon mk hmem
      have hex : ∃ n, (digitsToNat mk.digits, n) ∈ citation_map s := by
        show ∃ n, (digitsToNat mk.digits, n) ∈ cmapFrom 1 (citations s)
        rw [cmapFrom_mem_iff]
        show digitsToNat mk.digits ∈ sortedDedup (findallNat s)
        rw [sortedDedup_mem]
        exact findallNat_mem_of_marker hmem
      rw [replaceAllSeg_canonical hc.1 hex]
      rfl

/-- C4, counterexample to the claim as stated: in "[05][5]" both marker
occurrences have value 5 and the mapping is 5 to 1, but only the canonically
written [5] is rewritten to [1]; the leading-zero occurrence [05] remains, so
the rewritten text still contains a marker with old value 5. -/
theorem renumber_citations_leading_zero_counterexample :
    renumber_citations ("[05][5]".toList) = ("[05][1]".toList, [(5, 1)]) ∧
    findallNat ("[05][1]".toList) = [5, 1] := by decide

/-- C4 witness: the spec's own example, markers [5], [2], [5], [9]. -/
theorem renumber_citations_mapping_witness :
    (∀ mk ∈ markersOf "[5], [2], [5], [9]".toList,
      mk.digits = natDigits (digitsToNat mk.digits) ∧ 1 ≤ digitsToNat mk.digits) ∧
    scan (renumber_citations "[5], [2], [5], [9]".toList).1 =
      (scan "[5], [2], [5], [9]".toList).map (onMarker (fun mk =>
        ⟨false, natDigits (applyMap (citation_map "[5], [2], [5], [9]".toList)
          (digitsToNat mk.digits)), false⟩)) :=
  ⟨by decide, (renumber_citations_mapping_and_rewrite _).2 (by decide)⟩

/-- C7 (amended): on a text whose markers are all written in plain canonical
form [k] and whose value set is exactly 1..K, renumbering returns the
identical text and an identity mapping. -/
theorem renumber_citations_idempotent_on_canonical (s : List Char) (K : Nat)
    (hplain : ∀ mk ∈ markersOf s, mk = ⟨false, natDigits (digitsToNat mk.digits), false⟩)
    (hdense : citations s = List.range' 1 K) :
    (renumber_citations s).1 = s ∧ ∀ p ∈ (renumber_citations s).2, p.1 = p.2 := by
  have hmap : citation_map s = cmapFrom 1 (List.range' 1 K) := by
    show cmapFrom 1 (citations s) = _
    rw [hdense]
  have hid : ∀ p ∈ citation_map s, p.1 = p.2 := by
    rw [hmap]
    exact cmapFrom_range_ident K 1
  exact ⟨foldl_subOld_id hplain _ hid, hid⟩

/-- C7, counterexample to the claim as stated: "[007]" is its own
renumbering output (the text comes back unchanged), yet running the
normalizer on it yields the mapping 7 to 1, which is not the identity. -/
theorem renumber_citations_idempotence_counterexample :
    renumber_citations ("[007]".toList) = ("[007]".toList, [(7, 1)]) ∧ (7 : Nat) ≠ 1 := by
  decide

/-- C7 witness at the dense canonical text "see [1] and [2]". -/
theorem renumber_citations_idempotent_witness :
    (renumber_citations "see [1] and [2]".toList).1 = "see [1] and [2]".toList ∧
    ∀ p ∈ (renumber_citations "see [1] and [2]".toList).2, p.1 = p.2 :=
  renumber_citations_idempotent_on_canonical _ 2 (by decide) (by decide)

/-- C8: a text with no citation markers is returned unchanged with an empty
mapping, the rendered source list is empty, and the saved markdown omits the
Sources section. -/
theorem save_markdown_no_citations (query response : String) (keys : List String)
    (h : markersOf response.toList = []) :
    renumber_citations response.toList = (response.toList, []) ∧
    generate_citation_links [] keys = some "" ∧
    save_markdown_content query response keys =
      some ("# " ++ query ++ "\n\n## Answer\n" ++ response) := by
  have h2 : citation_map response.toList = [] := by
    simp only [citation_map, citations, findallNat, findallDigits, h, List.map_nil]
    rfl
  refine ⟨?_, rfl, ?_⟩
  · show ((citation_map response.toList).foldl subOld response.toList,
      citation_map response.toList) = _
    rw [h2]
    rfl
  · simp only [save_markdown_content, renumber_citations, h2]
    rfl

/-- C8 witness at a concrete marker-free response. -/
theorem save_markdown_no_citations_witness :
    renumber_citations "no citations here".toList = ("no citations here".toList, []) ∧
    generate_citation_links [] ["u1"] = some "" ∧
    save_markdown_content "q" "no citations here" ["u1"] =
      some "# q\n\n## Answer\nno citations here" :=
  save_markdown_no_citations "q" "no citations here" ["u1"] (by decide)

/-! ### Scheduler: dict semantics -/

theorem fetch_webpage_fst (url : String) (r : GetResult) : (fetch_webpage url r).1 = url := by
  cases r <;> rfl

theorem dictKeys_map_update (d : List (String × String)) (k v : String) :
    dictKeys (d.map (fun p => if p.1 = k then (k, v) else p)) = dictKeys d := by
  unfold dictKeys
  rw [List.map_map]
  apply List.map_congr_left
  intro p _
  by_cases hp : p.1 = k
  · simp [hp]
  · simp [hp]

theorem dictKeys_dictInsert_mem (d : List (String × String)) (k v a : String) :
    a ∈ dictKeys (dictInsert d k v) ↔ a ∈ dictKeys d ∨ a = k := by
  unfold dictInsert
  by_cases hc : k ∈ dictKeys d
  · rw [if_pos hc, dictKeys_map_update]
    constructor
    · exact Or.inl
    · rintro (h | rfl)
      · exact h
      · exact hc
  · rw [if_neg hc]
    show a ∈ dictKeys (d ++ [(k, v)]) ↔ _
    unfold dictKeys
    rw [List.map_append, List.mem_append]
    simp

theorem nodup_dictInsert {d : List (String × String)} (k v : String)
    (h : (dictKeys d).Nodup) : (dictKeys (dictInsert d k v)).Nodup := by
  unfold dictInsert
  by_cases hc : k ∈ dictKeys d
  · rw [if_pos hc, dictKeys_map_update]
    exact h
  · rw [if_neg hc]
    show (dictKeys (d ++ [(k, v)])).Nodup
    unfold dictKeys
    rw [List.map_append, List.nodup_append]
    refine ⟨h, List.nodup_singleton _, ?_⟩
    intro a ha hb
    simp only [List.map_cons, List.map_nil, List.mem_singleton] at hb
    subst hb
    exact hc ha

theorem find?_append_eq {α : Type} (p : α → Bool) (l1 l2 : List α) :
    (l1 ++ l2).find? p = (match l1.find? p with | some a => some a | none => l2.find? p) := by
  induction l1 with
  | nil => rfl
  | cons a l ih =>
    by_cases hp : p a
    · simp [List.find?, hp]
    · simp only [List.cons_append, List.find?, show p a = false by simpa using hp]
      exact ih

theorem dictGet_dictInsert_self (d : List (String × String)) (k v : String) :
    dictGet (dictInsert d k v) k = some v := by
  unfold dictInsert
  by_cases hc : k ∈ dictKeys d
  · rw [if_pos hc]
    induction d with
    | nil => simp [dictKeys] at hc
    | cons p rest ih =>
      by_cases hp : p.1 = k
      · simp only [List.map_cons, if_pos hp]
        show dictGet ((k, v) :: _) k = some v
        simp [dictGet, List.find?]
      · simp only [List.map_cons, if_neg hp]
        have hc2 : k ∈ dictKeys rest := by
          unfold dictKeys at hc
          rcases List.mem_cons.mp hc with h | h
          · exact absurd h.symm hp
          · exact h
        show dictGet (p :: _) k = some v
        unfold dictGet
        rw [List.find?, show (p.1 == k) = false by simpa using hp]
        exact ih hc2
  · rw [if_neg hc]
    unfold dictGet
    rw [find?_append_eq]
    have hnone : d.find? (fun p => p.1 == k) = none := by
      rw [List.find?_eq_none]
      intro p hp hbeq
      apply hc
      have : p.1 = k := by simpa using hbeq
      rw [← this]
      exact List.mem_map_of_mem Prod.fst hp
    rw [hnone]
    simp [List.find?]

theorem dictGet_dictInsert_other (d : List (String × String)) (k v u : String)
    (hu : u ≠ k) : dictGet (dictInsert d k v) u = dictGet d u := by
  unfold dictInsert
  by_cases hc : k ∈ dictKeys d
  · rw [if_pos hc]
    induction d with
    | nil => rfl
    | cons p rest ih =>
      by_cases hp : p.1 = k
      · simp only [List.map_cons, if_pos hp]
        show dictGet ((k, v) :: _) u = dictGet (p :: rest) u
        unfold dictGet
        rw [List.find?, List.find?,
          show (k == u) = false by simpa using (Ne.symm hu),
          show (p.1 == u) = false by rw [hp]; simpa using (Ne.symm hu)]
        by_cases hc2 : k ∈ dictKeys rest
        · have := ih hc2
          unfold dictGet at this
          exact this
        · have hfix : rest.map (fun p => if p.1 = k then (k, v) else p) = rest := by
            apply List.map_congr_left (g := id) ?_ |>.trans (List.map_id rest)
            intro q hq
            have hqk : q.1 ≠ k := by
              intro hh
              apply hc2
              rw [← hh]
              exact List.mem_map_of_mem Prod.fst hq
            simp [hqk]
          rw [hfix]
      · simp only [List.map_cons, if_neg hp]
        show dictGet (p :: _) u = dictGet (p :: rest) u
        unfold dictGet
        rw [List.find?, List.find?]
        by_cases hpu : p.1 = u
        · simp [hpu]
        · rw [show (p.1 == u) = false by simpa using hpu]
          by_cases hc2 : k ∈ dictKeys rest
          · have := ih hc2
            unfold dictGet at this
            exact this
          · have : k ∈ dictKeys rest := by
              unfold dictKeys at hc
              rcases List.mem_cons.mp hc with h | h
              · exact absurd h.symm hp
              · exact h
            exact absurd this hc2
  · rw [if_neg hc]
    unfold dictGet
    rw [find?_append_eq]
    cases hfind : d.find? (fun p => p.1 == u) with
    | some q => rfl
    | none =>
      rw [List.find?, show (k == u) = false by simpa using (Ne.symm hu)]
      rfl

/-! ### Scheduler: fold invariants -/

theorem gpwStep_spec (d : List (String × String)) (u : String) (r : GetResult) :
    (∃ t, (fetch_webpage u r).2 = some t ∧ u ≠ "" ∧ t ≠ "" ∧
      gpwStep d (u, r) = dictInsert d u t) ∨
    (gpwStep d (u, r) = d ∧ ∀ t, (fetch_webpage u r).2 = some t → (u = "" ∨ t = "")) := by
  cases r with
  | ok ps =>
    by_cases hc : u ≠ "" ∧ String.intercalate " " ps ≠ ""
    · left
      refine ⟨String.intercalate " " ps, rfl, hc.1, hc.2, ?_⟩
      show (if u ≠ "" ∧ String.intercalate " " ps ≠ ""
        then dictInsert d u (String.intercalate " " ps) else d) = _
      rw [if_pos hc]
    · right
      constructor
      · show (if u ≠ "" ∧ String.intercalate " " ps ≠ ""
          then dictInsert d u (String.intercalate " " ps) else d) = d
        rw [if_neg hc]
      · intro t hft
        have ht : t = String.intercalate " " ps := by
          have : some (String.intercalate " " ps) = some t := hft
          exact (Option.some.inj this).symm
        subst ht
        by_cases h1 : u = ""
        · exact Or.inl h1
        · right
          by_contra h2
          exact hc ⟨h1, h2⟩
  | connectionError => exact Or.inr ⟨rfl, fun t hft => absurd hft (by simp [fetch_webpage])⟩
  | httpError => exact Or.inr ⟨rfl, fun t hft => absurd hft (by simp [fetch_webpage])⟩
  | requestTimeout => exact Or.inr ⟨rfl, fun t hft => absurd hft (by simp [fetch_webpage])⟩
  | globalTimeout => exact Or.inr ⟨rfl, fun t hft => absurd hft (by simp [fetch_webpage])⟩

theorem gpw_fold_keys : ∀ (completion : List (String × GetResult)) (d : List (String × String)),
    (dictKeys d).Nodup →
    (dictKeys (completion.foldl gpwStep d)).Nodup ∧
    (∀ a ∈ dictKeys (completion.foldl gpwStep d),
      a ∈ dictKeys d ∨ a ∈ completion.map Prod.fst) := by
  intro completion
  induction completion with
  | nil => intro d hd; exact ⟨hd, fun a ha => Or.inl ha⟩
  | cons p rest ih =>
    intro d hd
    obtain ⟨u, r⟩ := p
    simp only [List.foldl_cons]
    rcases gpwStep_spec d u r with ⟨t, _, _, _, heq⟩ | ⟨heq, _⟩
    · rw [heq]
      obtain ⟨hnd, hmem⟩ := ih (dictInsert d u t) (nodup_dictInsert u t hd)
      refine ⟨hnd, ?_⟩
      intro a ha
      rcases hmem a ha with h | h
      · rcases (dictKeys_dictInsert_mem d u t a).mp h with h2 | rfl
        · exact Or.inl h2
        · exact Or.inr (by simp)
      · exact Or.inr (by simp [h])
    · rw [heq]
      obtain ⟨hnd, hmem⟩ := ih d hd
      refine ⟨hnd, ?_⟩
      intro a ha
      rcases hmem a ha with h | h
      · exact Or.inl h
      · exact Or.inr (by simp [h])

theorem gpw_fold_get : ∀ (completion : List (String × GetResult)) (d : List (String × String))
    (acc : Option String) (u : String), dictGet d u = acc →
    dictGet (completion.foldl gpwStep d) u = completion.foldl (lastStep u) acc := by
  intro completion
  induction completion with
  | nil => intro d acc u h; exact h
  | cons p rest ih =>
    intro d acc u h
    obtain ⟨v, r⟩ := p
    simp only [List.foldl_cons]
    apply ih
    cases r with
    | ok ps =>
      show dictGet (if v ≠ "" ∧ String.intercalate " " ps ≠ ""
          then dictInsert d v (String.intercalate " " ps) else d) u =
        (if v = u ∧ u ≠ "" ∧ String.intercalate " " ps ≠ ""
          then some (String.intercalate " " ps) else acc)
      by_cases hins : v ≠ "" ∧ String.intercalate " " ps ≠ ""
      · rw [if_pos hins]
        by_cases heq : v = u
        · subst heq
          rw [dictGet_dictInsert_self, if_pos ⟨rfl, hins.1, hins.2⟩]
        · rw [dictGet_dictInsert_other d v _ u (fun hh => heq hh.symm),
            if_neg (fun hcon => heq hcon.1), h]
      · rw [if_neg hins, h,
          if_neg (by
            intro hcon
            exact hins ⟨by rw [hcon.1]; exact hcon.2.1, hcon.2.2⟩)]
    | connectionError => exact h
    | httpError => exact h
    | requestTimeout => exact h
    | globalTimeout => exact h

theorem gpw_fold_mem : ∀ (completion : List (String × GetResult))
    (d : List (String × String)) (u : String),
    u ∈ dictKeys (completion.foldl gpwStep d) ↔
      u ∈ dictKeys d ∨ (u ≠ "" ∧ ∃ t, t ≠ "" ∧
        ∃ r, (u, r) ∈ completion ∧ (fetch_webpage u r).2 = some t) := by
  intro completion
  induction completion with
  | nil =>
    intro d u
    simp
  | cons p rest ih =>
    intro d u
    obtain ⟨v, r⟩ := p
    simp only [List.foldl_cons]
    rw [ih]
    rcases gpwStep_spec d v r with ⟨t, hf, hv, ht, heq⟩ | ⟨heq, hnot⟩
    · rw [heq, dictKeys_dictInsert_mem]
      constructor
      · rintro ((hmem | rfl) | ⟨hu, t2, ht2, r2, hmem2, hf2⟩)
        · exact Or.inl hmem
        · exact Or.inr ⟨hv, t, ht, r, List.mem_cons_self _ _, hf⟩
        · exact Or.inr ⟨hu, t2, ht2, r2, List.mem_cons_of_mem _ hmem2, hf2⟩
      · rintro (hmem | ⟨hu, t2, ht2, r2, hmem2, hf2⟩)
        · exact Or.inl (Or.inl hmem)
        · rcases List.mem_cons.mp hmem2 with heq2 | hm2
          · have hv2 : u = v := congrArg Prod.fst heq2
            exact Or.inl (Or.inr hv2)
          · exact Or.inr ⟨hu, t2, ht2, r2, hm2, hf2⟩
    · rw [heq]
      constructor
      · rintro (hmem | ⟨hu, t2, ht2, r2, hmem2, hf2⟩)
        · exact Or.inl hmem
        · exact Or.inr ⟨hu, t2, ht2, r2, List.mem_cons_of_mem _ hmem2, hf2⟩
      · rintro (hmem | ⟨hu, t2, ht2, r2, hmem2, hf2⟩)
        · exact Or.inl hmem
        · rcases List.mem_cons.mp hmem2 with heq2 | hm2
          · have hv2 : u = v := congrArg Prod.fst heq2
            have hr2 : r2 = r := congrArg Prod.snd heq2
            subst hv2
            subst hr2
            rcases hnot t2 hf2 with h1 | h1
            · exact absurd h1 hu
            · exact absurd h1 ht2
          · exact Or.inr ⟨hu, t2, ht2, r2, hm2, hf2⟩

/-- C3: for every completion of the dispatched fetches (any mix of successes,
failures and timeouts, in any completion order), the scheduler returns a map
(the fold is a total function — no exception escapes: fetch_webpage itself
absorbs its failure classes, see fetch_webpage_total), whose keys are distinct,
all drawn from the input url list, so its size is at most the input size. -/
theorem google_parse_webpages_bounded (urls : List String)
    (completion : List (String × GetResult))
    (hperm : (completion.map Prod.fst).Perm urls) :
    (dictKeys (google_parse_webpages completion)).Nodup ∧
    (∀ k ∈ dictKeys (google_parse_webpages completion), k ∈ urls) ∧
    (google_parse_webpages completion).length ≤ urls.length := by
  obtain ⟨hnd, hmem⟩ := gpw_fold_keys completion [] (by simp [dictKeys])
  have hsub : ∀ k ∈ dictKeys (google_parse_webpages completion), k ∈ urls := by
    intro k hk
    rcases hmem k hk with h | h
    · simp [dictKeys] at h
    · exact hperm.mem_iff.mp h
  refine ⟨hnd, hsub, ?_⟩
  have hlen : (dictKeys (google_parse_webpages completion)).length ≤ urls.length :=
    List.Subperm.length_le (List.Nodup.subperm hnd hsub)
  simpa [dictKeys] using hlen

/-- C3 witness: two urls, one failure, completion out of submission order. -/
theorem google_parse_webpages_bounded_witness :
    (dictKeys (google_parse_webpages
      [("b", GetResult.ok ["x"]), ("a", GetResult.connectionError)])).Nodup ∧
    (∀ k ∈ dictKeys (google_parse_webpages
      [("b", GetResult.ok ["x"]), ("a", GetResult.connectionError)]), k ∈ ["a", "b"]) ∧
    (google_parse_webpages
      [("b", GetResult.ok ["x"]), ("a", GetResult.connectionError)]).length ≤
        (["a", "b"] : List String).length :=
  google_parse_webpages_bounded ["a", "b"] _ (by decide)

/-- C2 (amended): the Page Fetcher does return a Success whose text may be
empty (the join of no paragraphs), but the Scheduler's comprehension keeps an
entry exactly for the urls with some fetch that succeeded with a truthy url
and a nonempty text: a Success with empty text yields no Evidence Map
entry. -/
theorem google_parse_webpages_membership (completion : List (String × GetResult)) (u : String) :
    (∀ url ps, fetch_webpage url (.ok ps) = (url, some (String.intercalate " " ps))) ∧
    (u ∈ dictKeys (google_parse_webpages completion) ↔
      u ≠ "" ∧ ∃ t, t ≠ "" ∧ ∃ r, (u, r) ∈ completion ∧ (fetch_webpage u r).2 = some t) := by
  refine ⟨fun _ _ => rfl, ?_⟩
  have h := gpw_fold_mem completion [] u
  show u ∈ dictKeys (List.foldl gpwStep [] completion) ↔ _
  rw [h]
  simp [dictKeys]

/-- C2, counterexample to the claim as stated: the fetch of "u" succeeds and
returns the Success ("u", "") — a page with no paragraph elements — yet the
Evidence Map is empty: the empty string is falsy in the comprehension's
filter, so the Success is dropped, not inserted. -/
theorem google_parse_webpages_drops_empty_text :
    fetch_webpage "u" (GetResult.ok []) = ("u", some "") ∧
    google_parse_webpages [("u", GetResult.ok [])] = [] := by decide

/-- C2 witness: a nonempty success is inserted under its url key. -/
theorem google_parse_webpages_membership_witness :
    "u" ∈ dictKeys (google_parse_webpages [("u", GetResult.ok ["hi"])]) :=
  ((google_parse_webpages_membership [("u", GetResult.ok ["hi"])] "u").2).mpr
    ⟨by decide, "hi", by decide, GetResult.ok ["hi"], List.mem_cons_self _ _, rfl⟩

/-- C9 (amended): duplicates in the input are fetched independently (one
completion entry per occurrence); the Evidence Map keeps unique keys and, for
each url, the entry holds the text of the last completed fetch of that url
that succeeded with nonempty text; if every fetch of the url failed or
returned empty text, the url has no entry. -/
theorem google_parse_webpages_duplicates (completion : List (String × GetResult)) (u : String) :
    (dictKeys (google_parse_webpages completion)).Nodup ∧
    dictGet (google_parse_webpages completion) u = lastNonemptySuccess completion u :=
  ⟨(gpw_fold_keys completion [] (by simp [dictKeys])).1,
    gpw_fold_get completion [] none u rfl⟩

/-- C9, counterexample to the claim as stated: the second (last completed)
fetch of "u" also succeeds, with empty text, yet the Evidence Map entry holds
the text of the first fetch, not that of the last successful one. -/
theorem google_parse_webpages_last_write_counterexample :
    fetch_webpage "u" (GetResult.ok []) = ("u", some "") ∧
    google_parse_webpages [("u", GetResult.ok ["a"]), ("u", GetResult.ok [])] = [("u", "a")] ∧
    ("a" : String) ≠ "" := by decide

/-- C10: fetch_webpage is total over its declared failure classes — the first
component is always the input url, every caught exception class yields
(url, None), and a success yields the single-space join of the paragraph
texts. -/
theorem fetch_webpage_total (url : String) :
    (∀ ps, fetch_webpage url (.ok ps) = (url, some (String.intercalate " " ps))) ∧
    fetch_webpage url .connectionError = (url, none) ∧
    fetch_webpage url .httpError = (url, none) ∧
    fetch_webpage url .requestTimeout = (url, none) ∧
    fetch_webpage url .globalTimeout = (url, none) :=
  ⟨fun _ => rfl, rfl, rfl, rfl, rfl⟩

/-- C5: when every old value in the mapping is within the Evidence Map's size,
the rendered source list is exactly one line "{new}. {url}" per pair, with url
the (old−1)-indexed key in insertion order, joined by newlines. -/
theorem generate_citation_links_in_range (m : List (Nat × Nat)) (keys : List String)
    (h : ∀ p ∈ m, 1 ≤ p.1 ∧ p.1 ≤ keys.length) :
    generate_citation_links m keys =
      some (String.intercalate "\n"
        (m.map (fun p => natStr p.2 ++ ". " ++ keys.getD (p.1 - 1) ""))) := by
  have hlinks : ∀ (mm : List (Nat × Nat)), (∀ p ∈ mm, 1 ≤ p.1 ∧ p.1 ≤ keys.length) →
      cited_links mm keys =
        some (mm.map (fun p => natStr p.2 ++ ". " ++ keys.getD (p.1 - 1) "")) := by
    intro mm
    induction mm with
    | nil => intro _; rfl
    | cons p rest ih =>
      intro hmm
      obtain ⟨h1, h2⟩ := hmm p (List.mem_cons_self _ _)
      have hlt : p.1 - 1 < keys.length := by omega
      have h0 : (0 : Int) ≤ (p.1 : Int) - 1 := by omega
      have htn : ((p.1 : Int) - 1).toNat = p.1 - 1 := by omega
      have hget : keys.get? (p.1 - 1) = some (keys.getD (p.1 - 1) "") := by
        rw [List.get?_eq_get hlt, List.getD_eq_getElem keys "" hlt]
        rfl
      have hline : citedLine keys p = some (natStr p.2 ++ ". " ++ keys.getD (p.1 - 1) "") := by
        unfold citedLine pyListGet
        rw [if_pos h0, htn, hget]
        rfl
      have hres := ih (fun q hq => hmm q (List.mem_cons_of_mem _ hq))
      simp only [cited_links, hline, hres, List.map_cons]
  unfold generate_citation_links
  rw [hlinks m h]
  rfl

/-- C5 witness: the spec's example — mapping 2 to 1, 5 to 2, 9 to 3 over nine
keys. -/
theorem generate_citation_links_in_range_witness :
    generate_citation_links [(2, 1), (5, 2), (9, 3)]
      ["u1", "u2", "u3", "u4", "u5", "u6", "u7", "u8", "u9"] =
      some "1. u2\n2. u5\n3. u9" :=
  (generate_citation_links_in_range [(2, 1), (5, 2), (9, 3)]
    ["u1", "u2", "u3", "u4", "u5", "u6", "u7", "u8", "u9"] (by decide)).trans (by decide)

/-- C1: when a mapped old value exceeds the Evidence Map's size, the list
indexing at line 148 raises IndexError.  In the model: the rendered source
list is none, and save_markdown propagates the exception (none — the program
crashes before writing any output file).  There is no placeholder or warning
path in the code. -/
theorem generate_citation_links_out_of_range_crash :
    generate_citation_links [(2, 1)] ["u1"] = none ∧
    save_markdown_content "q" "ans [2]" ["u1"] = none := by decide

/-- C6, counterexample to the claim as stated: take the retrieval phase to
start at T0 = 0 and a fetch_webpage invocation that starts at time 5 with the
default per-item timeout.  At clock reading 10 the claimed global deadline
T0 + TOTAL_TIMEOUT = 6 has elapsed, yet the invocation's trace function does
not raise (10 − 5 ≤ 6); and the HTTP GET was issued with timeout 3, not
min(3, remaining 1). -/
theorem trace_function_counterexample :
    trace_raises 5 10 = false ∧ (0 : Int) + TOTAL_TIMEOUT < 10 ∧
    fetch_get_timeout SEARCH_TIME_LIMIT ≠
      min SEARCH_TIME_LIMIT ((0 : Int) + TOTAL_TIMEOUT - 5) := by decide

/-- C6 (amended): each fetch_webpage invocation enforces its own deadline
start + TOTAL_TIMEOUT, where start is that invocation's own start time: its
trace function raises exactly when now − start exceeds TOTAL_TIMEOUT, and the
HTTP GET is issued with the per-item timeout unchanged. -/
theorem trace_function_per_invocation (start now t : Int) :
    (trace_raises start now = true ↔ TOTAL_TIMEOUT < now - start) ∧
    fetch_get_timeout t = t :=
  ⟨by simp [trace_raises], rfl⟩
